import Mathlib

/-!
# Verification of the notes-generator job table

A shallow embedding of the per-file job state machine of `src/app.py`:
the session job table (`st.session_state.files`), the single-flight
scheduler scans, the cancellation-checking pipeline, the cancel handlers,
and the markdown export. External collaborators (PDF text extraction,
note generation) are modelled as oracles returning `Option String`:
`none` stands for a call whose exception was caught and turned into
`None` by the `try/except` wrappers in the source, and `some ""` for a
call that returned an empty (falsy) string.
-/

namespace NotesApp

/-- Job status, the string values `"In Queue"`, `"Processing"`,
`"Completed"`, `"Failed"`, `"Cancelled"` of `app.py`. -/
inductive Status where
  | inQueue
  | processing
  | completed
  | failed
  | cancelledSt
  deriving DecidableEq, Repr

/-- One entry of `st.session_state.files` (app.py lines 150-155): the
`status` string, the optional `notes` text, and the `cancelled` flag.
The `file` handle is not part of the state we track; its extraction
result is supplied by an oracle keyed by file name. -/
structure Job where
  status : Status
  notes : Option String
  cancelled : Bool
  deriving DecidableEq, Repr

/-- A freshly created job (app.py lines 150-155): `"In Queue"`, no notes,
not cancelled. -/
def Job.fresh : Job :=
  { status := Status.inQueue, notes := none, cancelled := false }

/-- The session job table: `st.session_state.files`, a Python dict that
preserves insertion order, modelled as an association list. -/
abbrev Table := List (String × Job)

/-- First entry with the given key, as Python dict lookup (keys are
unique in any table the program builds). -/
def lookupJob (k : String) : Table → Option Job
  | [] => none
  | (k', j) :: rest => if k' = k then some j else lookupJob k rest

/-- `pdf_file.name in st.session_state.files` (app.py line 149). -/
def containsKey (t : Table) (k : String) : Bool :=
  t.any (fun p => p.1 = k)

/-- Body of the job-creation loop (app.py lines 148-155): insert a fresh
job at the end iff the key is not already present. -/
def addJob (t : Table) (k : String) : Table :=
  if containsKey t k then t else t ++ [(k, Job.fresh)]

/-- The `generate_button` job-creation loop (app.py lines 148-155):
for each uploaded file name, create the job if first seen. -/
def generate (uploads : List String) (t : Table) : Table :=
  uploads.foldl addJob t

/-- The `cancel_all_button` handler (app.py lines 157-160): for every
file in the table, set `cancelled = True` and `status = "Cancelled"`. -/
def cancelAll (t : Table) : Table :=
  t.map (fun p => (p.1, { p.2 with cancelled := true, status := Status.cancelledSt }))

/-- The per-file Cancel button (app.py lines 207-210): the button is
rendered only when the job's status is `"In Queue"` or `"Processing"`;
clicking it sets `cancelled = True` and `status = "Cancelled"`. -/
def cancelOne (name : String) (t : Table) : Table :=
  t.map (fun p =>
    (p.1,
      if p.1 = name ∧ (p.2.status = Status.inQueue ∨ p.2.status = Status.processing) then
        { p.2 with cancelled := true, status := Status.cancelledSt }
      else p.2))

/-- `any job has status == "Processing"` — the first half of each
scheduler scan (app.py lines 186-190 and 233-237). -/
def hasProcessing (t : Table) : Bool :=
  t.any (fun p => p.2.status = Status.processing)

/-- Second half of the scheduler scan (app.py lines 192-197 and 239-244):
walk the table in insertion order and set the first `"In Queue"` job to
`"Processing"`. -/
def markFirstInQueue : Table → Table
  | [] => []
  | (k, j) :: rest =>
    if j.status = Status.inQueue then
      (k, { j with status := Status.processing }) :: rest
    else
      (k, j) :: markFirstInQueue rest

/-- One full scheduler scan (app.py lines 186-197, repeated at 233-244):
if some job is already `"Processing"` it stays the active job and nothing
is admitted; otherwise the first `"In Queue"` job is admitted. -/
def admission (t : Table) : Table :=
  if hasProcessing t then t else markFirstInQueue t

/-- The `processing_file` found by a scan: the first entry whose status
is `"Processing"` (app.py lines 233-237). -/
def findProcessingEntry : Table → Option (String × Job)
  | [] => none
  | (k, j) :: rest =>
    if j.status = Status.processing then some (k, j) else findProcessingEntry rest

/-- Result of one pipeline execution for the active job: the final job
record, and whether the extraction and generation collaborators were
invoked during it. -/
structure PipeResult where
  job : Job
  extractCalled : Bool
  genCalled : Bool
  deriving DecidableEq, Repr

/-- The active-job pipeline (app.py lines 246-274). `extractRes` is what
`extract_text_from_pdf` returns (`none` = exception caught), `genRes`
what `generate_notes_with_gemini` returns. `c1`, `c2`, `c3` say whether a
concurrent cancellation request lands before the flag check at line 247,
line 255, or line 261 respectively; the flag is re-read at exactly those
three points. -/
def runPipeline (j : Job) (extractRes genRes : Option String) (c1 c2 c3 : Bool) :
    PipeResult :=
  let f0 := j.cancelled || c1
  if f0 then
    -- line 247-249: flag set before any work → Cancelled, no calls
    { job := { j with cancelled := f0, status := Status.cancelledSt },
      extractCalled := false, genCalled := false }
  else
    -- line 253: chapter_text = extract_text_from_pdf(pdf_file)
    let f1 := f0 || c2
    if f1 then
      -- line 255-257: flag set after extraction → Cancelled
      { job := { j with cancelled := f1, status := Status.cancelledSt },
        extractCalled := true, genCalled := false }
    else
      match extractRes with
      | some text =>
        if text = "" then
          -- line 271-274: chapter_text falsy → notes = None, Failed
          { job := { j with notes := none, status := Status.failed },
            extractCalled := true, genCalled := false }
        else
          -- line 259: notes = generate_notes_with_gemini(...)
          let f2 := f1 || c3
          if f2 then
            -- line 261-263: flag set after generation → Cancelled, notes discarded
            { job := { j with cancelled := f2, status := Status.cancelledSt },
              extractCalled := true, genCalled := true }
          else
            match genRes with
            | some ns =>
              -- line 265-269: store notes, then status by truthiness
              if ns = "" then
                { job := { j with notes := some ns, status := Status.failed },
                  extractCalled := true, genCalled := true }
              else
                { job := { j with notes := some ns, status := Status.completed },
                  extractCalled := true, genCalled := true }
            | none =>
              { job := { j with notes := none, status := Status.failed },
                extractCalled := true, genCalled := true }
      | none =>
        -- line 271-274: chapter_text is None → notes = None, Failed
        { job := { j with notes := none, status := Status.failed },
          extractCalled := true, genCalled := false }

/-- Write the updated record of the active job back into the table
(the `st.session_state.files[processing_file][...] = ...` stores). -/
def updateJob (t : Table) (k : String) (j : Job) : Table :=
  t.map (fun p => (p.1, if p.1 = k then j else p.2))

/-- Lines 246-274: if the second scan found a `processing_file`, run the
pipeline for it; otherwise leave the table unchanged. `ext` and `gn` are
the collaborator oracles keyed by file name, `c` gives the cancellation
arrivals for this execution. -/
def pipelineStep (ext gn : String → Option String) (c : String → Bool × Bool × Bool)
    (t : Table) : Table :=
  match findProcessingEntry t with
  | none => t
  | some (k, j) =>
    updateJob t k (runPipeline j (ext k) (gn k) (c k).1 (c k).2.1 (c k).2.2).job

/-- One observable user-level action, each corresponding to one run of
the script with the state-table effects it performs before handing
control back:
* `generateRun`: the Generate button fired — job creation (lines 148-155)
  followed by both scheduler scans (186-197, 233-244) and the pipeline
  (246-274);
* `cancelAllRun`: the Cancel All handler fired (157-161) and `st.rerun()`
  aborts the script before the scans;
* `cancelOneRun`: a per-file Cancel button fired: the first scan has
  already run (186-197), then the handler (208-211) calls `st.rerun()`
  and the second scan and pipeline are skipped;
* `rerun`: any other run (plain rerun, download buttons): both scans and
  the pipeline. -/
inductive Action where
  | generateRun (uploads : List String) (ext gn : String → Option String)
      (c : String → Bool × Bool × Bool)
  | cancelAllRun
  | cancelOneRun (name : String)
  | rerun (ext gn : String → Option String) (c : String → Bool × Bool × Bool)

/-- Effect of one action on the job table. -/
def applyAction : Action → Table → Table
  | Action.generateRun ups ext gn c, t =>
      pipelineStep ext gn c (admission (admission (generate ups t)))
  | Action.cancelAllRun, t => cancelAll t
  | Action.cancelOneRun name, t => cancelOne name (admission t)
  | Action.rerun ext gn c, t =>
      pipelineStep ext gn c (admission (admission t))

/-- Tables reachable from the empty session table by user actions. -/
inductive Reachable : Table → Prop where
  | init : Reachable []
  | step {t : Table} (a : Action) : Reachable t → Reachable (applyAction a t)

/-- Run a whole sequence of actions. -/
def runActions (acts : List Action) (t : Table) : Table :=
  acts.foldl (fun s a => applyAction a s) t

/-- Number of jobs whose status is `"Processing"`. -/
def countProcessing (t : Table) : Nat :=
  t.countP (fun p => p.2.status = Status.processing)

/-- Per-job invariant of every reachable table: a cancelled flag forces
status `"Cancelled"`, and a `"Completed"` job has non-empty notes. -/
def goodJob (j : Job) : Prop :=
  (j.cancelled = true → j.status = Status.cancelledSt) ∧
  (j.status = Status.completed → ∃ s, j.notes = some s ∧ s ≠ "")

/-- Global invariant of reachable tables: keys are unique, at most one
job is `"Processing"`, and every job satisfies `goodJob`. -/
def Inv (t : Table) : Prop :=
  (t.map Prod.fst).Nodup ∧ countProcessing t ≤ 1 ∧ ∀ p ∈ t, goodJob p.2

/-- `file_name.replace('.pdf', '')` (app.py line 167) on the character
list: every occurrence of `.pdf` is removed, scanning left to right. -/
def stripPdf : List Char → List Char
  | '.' :: 'p' :: 'd' :: 'f' :: rest => stripPdf rest
  | c :: rest => c :: stripPdf rest
  | [] => []

/-- The per-file heading of the export (app.py line 167). -/
def exportHeading (name : String) : String :=
  "# Notes for " ++ String.mk (stripPdf name.data) ++ "\n\n"

/-- The rule text appended after each entry (app.py line 169). -/
def hrule : String := "\n\n---\n\n"

/-- The filter of the export loop (app.py line 166): status is
`"Completed"` and `notes` is truthy (not `None`, not empty). -/
def qualifies (j : Job) : Bool :=
  j.status = Status.completed && j.notes.getD "" ≠ ""

/-- The `download_all_markdown_button` accumulation loop (app.py lines
164-169): for each qualifying job, append heading, notes and rule. -/
def exportAllMarkdown (t : Table) : String :=
  t.foldl
    (fun acc p =>
      if qualifies p.2 then acc ++ exportHeading p.1 ++ p.2.notes.getD "" ++ hrule
      else acc)
    ""

/-- Lines 170-179: the handler offers the concatenation for download when
it is non-empty, and otherwise warns with no output (`none`). -/
def exportAllMarkdownResult (t : Table) : Option String :=
  if exportAllMarkdown t = "" then none else some (exportAllMarkdown t)

/-- The entries of the export named by the spec: a per-file heading
followed by the job's notes, one for every `Completed` job, in insertion
order. -/
def completedEntries (t : Table) : List String :=
  (t.filter (fun p => p.2.status = Status.completed)).map
    (fun p => exportHeading p.1 ++ p.2.notes.getD "")

/-- Join a list of strings with a separator strictly between consecutive
elements (no leading or trailing separator). -/
def sepBy (sep : String) : List String → String
  | [] => ""
  | [e] => e
  | e :: rest => e ++ sep ++ sepBy sep rest

/-- Modelled from the spec's words (§4.4): "concatenates, in table
insertion order, a per-file heading followed by that Job's `notes`,
separated by a horizontal rule, for every Job with `status = Completed`;
returns empty/absent if no Job qualifies."  This is the comparator for
the refinement check against `exportAllMarkdownResult`. -/
def specExportAllMarkdown (t : Table) : Option String :=
  match completedEntries t with
  | [] => none
  | es => some (sepBy hrule es)

/-- Concatenation with the rule as a terminator after every element —
the shape the source's accumulation loop actually produces. -/
def ruleTerminated : List String → String
  | [] => ""
  | e :: rest => e ++ hrule ++ ruleTerminated rest

/-! ## Basic lemmas about lookup, keys and membership -/

theorem containsKey_iff_mem_keys (t : Table) (k : String) :
    containsKey t k = true ↔ k ∈ t.map Prod.fst := by
  induction t with
  | nil => simp [containsKey]
  | cons p rest ih =>
    simp only [containsKey, List.any_cons, List.map_cons, List.mem_cons,
      Bool.or_eq_true, decide_eq_true_eq] at *
    constructor
    · rintro (h | h)
      · exact Or.inl h.symm
      · exact Or.inr (ih.mp h)
    · rintro (h | h)
      · exact Or.inl h.symm
      · exact Or.inr (ih.mpr h)

theorem lookupJob_some_contains {t : Table} {k : String} {j : Job}
    (h : lookupJob k t = some j) : containsKey t k = true := by
  induction t with
  | nil => simp [lookupJob] at h
  | cons p rest ih =>
    obtain ⟨k', j'⟩ := p
    simp only [lookupJob] at h
    by_cases hk : k' = k
    · simp [containsKey, hk]
    · simp only [hk, if_false] at h
      simp only [containsKey, List.any_cons, Bool.or_eq_true, decide_eq_true_eq]
      exact Or.inr (ih h)

theorem lookupJob_append_of_contains {t₁ : Table} (t₂ : Table) {k : String}
    (h : containsKey t₁ k = true) :
    lookupJob k (t₁ ++ t₂) = lookupJob k t₁ := by
  induction t₁ with
  | nil => simp [containsKey] at h
  | cons p rest ih =>
    obtain ⟨k', j'⟩ := p
    by_cases hk : k' = k
    · simp [lookupJob, hk]
    · simp only [containsKey, List.any_cons, Bool.or_eq_true, decide_eq_true_eq] at h
      rcases h with h | h
      · exact absurd h hk
      · simp only [List.cons_append, lookupJob, hk, if_false]
        exact ih h

theorem lookupJob_append_of_not_contains {t₁ : Table} (t₂ : Table) {k : String}
    (h : containsKey t₁ k = false) :
    lookupJob k (t₁ ++ t₂) = lookupJob k t₂ := by
  induction t₁ with
  | nil => simp
  | cons p rest ih =>
    obtain ⟨k', j'⟩ := p
    simp only [containsKey, List.any_cons, Bool.or_eq_false_iff,
      decide_eq_false_iff_not] at h
    simp only [List.cons_append, lookupJob, h.1, if_false]
    exact ih h.2

/-- Looking up a key in a key-preserving per-entry map. -/
theorem lookupJob_map (g : String × Job → Job) (k : String) :
    ∀ t : Table,
      lookupJob k (t.map (fun p => (p.1, g p)))
        = (lookupJob k t).map (fun j => g (k, j))
  | [] => rfl
  | (k', j') :: rest => by
    by_cases hk : k' = k
    · subst hk; simp [lookupJob]
    · simp only [List.map_cons, lookupJob, hk, if_false]
      exact lookupJob_map g k rest

theorem keys_map_entries (g : String × Job → Job) (t : Table) :
    (t.map (fun p => (p.1, g p))).map Prod.fst = t.map Prod.fst := by
  induction t with
  | nil => rfl
  | cons p rest ih => simp [ih]

/-! ## Counting `Processing` jobs -/

theorem countProcessing_nil : countProcessing [] = 0 := rfl

theorem countProcessing_cons (p : String × Job) (t : Table) :
    countProcessing (p :: t)
      = (if p.2.status = Status.processing then 1 else 0) + countProcessing t := by
  simp only [countProcessing, List.countP_cons]
  by_cases h : p.2.status = Status.processing <;> simp [h, Nat.add_comm]

theorem hasProcessing_false_iff (t : Table) :
    hasProcessing t = false ↔ ∀ p ∈ t, p.2.status ≠ Status.processing := by
  simp [hasProcessing, List.any_eq_false]

theorem countProcessing_eq_zero_of_none {t : Table}
    (h : ∀ p ∈ t, p.2.status ≠ Status.processing) : countProcessing t = 0 := by
  simp only [countProcessing, List.countP_eq_zero]
  intro p hp
  simpa using h p hp

theorem countProcessing_markFirstInQueue {t : Table}
    (h : ∀ p ∈ t, p.2.status ≠ Status.processing) :
    countProcessing (markFirstInQueue t) ≤ 1 := by
  induction t with
  | nil => simp [markFirstInQueue, countProcessing_nil]
  | cons p rest ih =>
    obtain ⟨k, j⟩ := p
    by_cases hq : j.status = Status.inQueue
    · simp only [markFirstInQueue, hq, if_true]
      rw [countProcessing_cons]
      have : countProcessing rest = 0 :=
        countProcessing_eq_zero_of_none (fun q hq' => h q (List.mem_cons_of_mem _ hq'))
      simp [this]
    · simp only [markFirstInQueue, hq, if_false]
      rw [countProcessing_cons]
      have hj : j.status ≠ Status.processing := h (k, j) (List.mem_cons_self _ _)
      have := ih (fun q hq' => h q (List.mem_cons_of_mem _ hq'))
      simp only [hj, if_false]
      omega

theorem countProcessing_admission {t : Table} (h : countProcessing t ≤ 1) :
    countProcessing (admission t) ≤ 1 := by
  unfold admission
  by_cases hp : hasProcessing t
  · simp [hp, h]
  · have := (hasProcessing_false_iff t).mp (by simpa using hp)
    simp only [hp, Bool.false_eq_true, if_false]
    exact countProcessing_markFirstInQueue this

/-- A key-preserving map whose entries only stay put or leave
`Processing` (never enter it) does not increase the count. -/
theorem countProcessing_map_le (g : String × Job → Job) (t : Table)
    (h : ∀ p ∈ t, (g p).status = Status.processing → p.2.status = Status.processing) :
    countProcessing (t.map (fun p => (p.1, g p))) ≤ countProcessing t := by
  induction t with
  | nil => simp [countProcessing_nil]
  | cons p rest ih =>
    simp only [List.map_cons]
    rw [countProcessing_cons, countProcessing_cons]
    have hrest := ih (fun q hq => h q (List.mem_cons_of_mem _ hq))
    by_cases hg : (g p).status = Status.processing
    · have := h p (List.mem_cons_self _ _) hg
      simp only [hg, this, if_true]
      omega
    · simp only [hg, if_false]
      by_cases hp : p.2.status = Status.processing <;> simp [hp] <;> omega

/-! ## Scheduler-scan lemmas -/

theorem keys_markFirstInQueue (t : Table) :
    (markFirstInQueue t).map Prod.fst = t.map Prod.fst := by
  induction t with
  | nil => rfl
  | cons p rest ih =>
    obtain ⟨k, j⟩ := p
    by_cases hq : j.status = Status.inQueue <;>
      simp [markFirstInQueue, hq, ih]

theorem keys_admission (t : Table) :
    (admission t).map Prod.fst = t.map Prod.fst := by
  unfold admission
  by_cases hp : hasProcessing t <;> simp [hp, keys_markFirstInQueue]

theorem lookupJob_markFirstInQueue {t : Table} {k : String} {j : Job}
    (hj : lookupJob k t = some j) (hs : j.status ≠ Status.inQueue) :
    lookupJob k (markFirstInQueue t) = some j := by
  induction t with
  | nil => simp [lookupJob] at hj
  | cons p rest ih =>
    obtain ⟨k', j'⟩ := p
    simp only [lookupJob] at hj
    by_cases hk : k' = k
    · rw [if_pos hk] at hj
      obtain rfl : j' = j := Option.some.inj hj
      simp only [markFirstInQueue, if_neg hs, lookupJob, if_pos hk]
    · rw [if_neg hk] at hj
      by_cases hq : j'.status = Status.inQueue
      · simp only [markFirstInQueue, if_pos hq, lookupJob, if_neg hk]
        exact hj
      · simp only [markFirstInQueue, if_neg hq, lookupJob, if_neg hk]
        exact ih hj

theorem lookupJob_admission {t : Table} {k : String} {j : Job}
    (hj : lookupJob k t = some j) (hs : j.status ≠ Status.inQueue) :
    lookupJob k (admission t) = some j := by
  unfold admission
  by_cases hp : hasProcessing t
  · simp [hp, hj]
  · simp only [hp, Bool.false_eq_true, if_false]
    exact lookupJob_markFirstInQueue hj hs

theorem goodJob_markFirstInQueue {t : Table}
    (h : ∀ p ∈ t, goodJob p.2) :
    ∀ p ∈ markFirstInQueue t, goodJob p.2 := by
  induction t with
  | nil => simp [markFirstInQueue]
  | cons p rest ih =>
    obtain ⟨k, j⟩ := p
    by_cases hq : j.status = Status.inQueue
    · simp only [markFirstInQueue, hq, if_true]
      intro q hq'
      rcases List.mem_cons.mp hq' with h' | h'
      · subst h'
        have hgj : goodJob j := h (k, j) (List.mem_cons_self _ _)
        refine ⟨fun hc => ?_, fun hc => ?_⟩
        · rw [hgj.1 hc] at hq
          exact absurd hq (by simp)
        · exact absurd hc (by simp)
      · exact h q (List.mem_cons_of_mem _ h')
    · simp only [markFirstInQueue, hq, if_false]
      intro q hq'
      rcases List.mem_cons.mp hq' with h' | h'
      · subst h'; exact h (k, j) (List.mem_cons_self _ _)
      · exact ih (fun r hr => h r (List.mem_cons_of_mem _ hr)) q h'

theorem goodJob_admission {t : Table} (h : ∀ p ∈ t, goodJob p.2) :
    ∀ p ∈ admission t, goodJob p.2 := by
  unfold admission
  by_cases hp : hasProcessing t
  · simp only [hp, if_true]; exact h
  · simp only [hp, Bool.false_eq_true, if_false]
    exact goodJob_markFirstInQueue h

/-- The admission scan on a table whose first `"In Queue"` job is at the
split point: exactly that job is set to `"Processing"`. -/
theorem markFirstInQueue_split (t₁ t₂ : Table) (k : String) (j : Job)
    (hfirst : ∀ p ∈ t₁, p.2.status ≠ Status.inQueue)
    (hq : j.status = Status.inQueue) :
    markFirstInQueue (t₁ ++ (k, j) :: t₂)
      = t₁ ++ (k, { j with status := Status.processing }) :: t₂ := by
  induction t₁ with
  | nil => simp [markFirstInQueue, hq]
  | cons p rest ih =>
    obtain ⟨k', j'⟩ := p
    have hj' : j'.status ≠ Status.inQueue := hfirst (k', j') (List.mem_cons_self _ _)
    simp only [List.cons_append, markFirstInQueue, hj', if_false, List.cons.injEq,
      true_and]
    exact ih (fun q hq' => hfirst q (List.mem_cons_of_mem _ hq'))

/-- The active entry found by a scan splits the table, with no
`"Processing"` entry before it. -/
theorem findProcessingEntry_split {t : Table} {k : String} {j : Job}
    (h : findProcessingEntry t = some (k, j)) :
    ∃ t₁ t₂, t = t₁ ++ (k, j) :: t₂ ∧
      (∀ p ∈ t₁, p.2.status ≠ Status.processing) ∧
      j.status = Status.processing := by
  induction t with
  | nil => simp [findProcessingEntry] at h
  | cons p rest ih =>
    obtain ⟨k', j'⟩ := p
    by_cases hs : j'.status = Status.processing
    · simp only [findProcessingEntry, hs, if_true, Option.some.injEq,
        Prod.mk.injEq] at h
      obtain ⟨rfl, rfl⟩ := h
      refine ⟨[], rest, by simp, ?_, hs⟩
      intro q hq
      simp at hq
    · simp only [findProcessingEntry, hs, if_false] at h
      obtain ⟨t₁, t₂, rfl, hfirst, hstat⟩ := ih h
      refine ⟨(k', j') :: t₁, t₂, by simp, ?_, hstat⟩
      intro q hq
      rcases List.mem_cons.mp hq with h' | h'
      · subst h'; exact hs
      · exact hfirst q h'

theorem findProcessingEntry_none {t : Table}
    (h : ∀ p ∈ t, p.2.status ≠ Status.processing) :
    findProcessingEntry t = none := by
  induction t with
  | nil => rfl
  | cons p rest ih =>
    obtain ⟨k, j⟩ := p
    have := h (k, j) (List.mem_cons_self _ _)
    simp only [findProcessingEntry, this, if_false]
    exact ih (fun q hq => h q (List.mem_cons_of_mem _ hq))

/-! ## Pipeline lemmas -/

/-- The pipeline always leaves the active job in one of the three
terminal statuses — never `"Processing"` or `"In Queue"`. -/
theorem runPipeline_status (j : Job) (ext gn : Option String) (c1 c2 c3 : Bool) :
    (runPipeline j ext gn c1 c2 c3).job.status = Status.cancelledSt ∨
    (runPipeline j ext gn c1 c2 c3).job.status = Status.completed ∨
    (runPipeline j ext gn c1 c2 c3).job.status = Status.failed := by
  unfold runPipeline
  cases hxt : ext with
  | none => by_cases h0 : (j.cancelled || c1) = true <;> by_cases h2 : c2 = true <;>
      simp [h0, h2]
  | some text =>
    by_cases h0 : (j.cancelled || c1) = true
    · simp [h0]
    · by_cases h2 : c2 = true
      · simp [h0, h2]
      · by_cases htext : text = ""
        · simp [h0, h2, htext]
        · by_cases h3 : c3 = true
          · simp [h0, h2, htext, h3]
          · cases gn with
            | none => simp [h0, h2, htext, h3]
            | some ns => by_cases hns : ns = "" <;> simp [h0, h2, htext, h3, hns]

theorem runPipeline_status_ne_processing (j : Job) (ext gn : Option String)
    (c1 c2 c3 : Bool) :
    (runPipeline j ext gn c1 c2 c3).job.status ≠ Status.processing := by
  rcases runPipeline_status j ext gn c1 c2 c3 with h | h | h <;> simp [h]

/-- The pipeline result always satisfies the per-job invariant. -/
theorem goodJob_runPipeline (j : Job) (ext gn : Option String) (c1 c2 c3 : Bool) :
    goodJob (runPipeline j ext gn c1 c2 c3).job := by
  obtain ⟨s, n, cf⟩ := j
  cases cf with
  | true => simp [runPipeline, goodJob]
  | false =>
    cases c1 with
    | true => simp [runPipeline, goodJob]
    | false =>
      cases c2 with
      | true => simp [runPipeline, goodJob]
      | false =>
        cases ext with
        | none => simp [runPipeline, goodJob]
        | some text =>
          by_cases htext : text = ""
          · simp [runPipeline, goodJob, htext]
          · cases c3 with
            | true => simp [runPipeline, goodJob, htext]
            | false =>
              cases gn with
              | none => simp [runPipeline, goodJob, htext]
              | some ns =>
                by_cases hns : ns = "" <;>
                  simp [runPipeline, goodJob, htext, hns]

/-- A job whose flag is already set when the pipeline starts is cancelled
at the first check, with no collaborator call. -/
theorem runPipeline_cancelled_flag (j : Job) (ext gn : Option String)
    (c1 c2 c3 : Bool) (h : j.cancelled = true) :
    runPipeline j ext gn c1 c2 c3 =
      { job := { j with status := Status.cancelledSt },
        extractCalled := false, genCalled := false } := by
  obtain ⟨s, n, cf⟩ := j
  cases cf with
  | true => simp [runPipeline]
  | false => cases h

/-! ## Job-creation lemmas -/

theorem lookupJob_addJob {t : Table} {k : String} (u : String)
    (h : containsKey t k = true) : lookupJob k (addJob t u) = lookupJob k t := by
  unfold addJob
  by_cases hu : containsKey t u
  · simp [hu]
  · simp only [hu, Bool.false_eq_true, if_false]
    exact lookupJob_append_of_contains _ h

theorem containsKey_addJob {t : Table} {k : String} (u : String)
    (h : containsKey t k = true) : containsKey (addJob t u) k = true := by
  unfold addJob
  by_cases hu : containsKey t u
  · simp [hu, h]
  · simp only [hu, Bool.false_eq_true, if_false]
    unfold containsKey at h ⊢
    rw [List.any_append, h, Bool.true_or]

theorem lookupJob_generate {ups : List String} {t : Table} {k : String}
    (h : containsKey t k = true) :
    lookupJob k (generate ups t) = lookupJob k t := by
  induction ups generalizing t with
  | nil => rfl
  | cons u rest ih =>
    show lookupJob k (generate rest (addJob t u)) = lookupJob k t
    rw [ih (containsKey_addJob u h), lookupJob_addJob u h]

theorem keys_addJob_nodup {t : Table} (u : String)
    (h : (t.map Prod.fst).Nodup) : ((addJob t u).map Prod.fst).Nodup := by
  unfold addJob
  by_cases hu : containsKey t u
  · simp [hu, h]
  · have hmem : u ∉ t.map Prod.fst := by
      intro hmem
      rw [← containsKey_iff_mem_keys] at hmem
      simp [hmem] at hu
    simp only [hu, Bool.false_eq_true, if_false, List.map_append, List.map_cons,
      List.map_nil]
    rw [List.nodup_append]
    refine ⟨h, List.nodup_singleton u, ?_⟩
    intro x hx hx'
    simp only [List.mem_singleton] at hx'
    subst hx'
    exact hmem hx

theorem countProcessing_addJob (t : Table) (u : String) :
    countProcessing (addJob t u) = countProcessing t := by
  unfold addJob
  by_cases hu : containsKey t u
  · simp [hu]
  · simp only [hu, Bool.false_eq_true, if_false, countProcessing, List.countP_append]
    simp [Job.fresh]

theorem goodJob_addJob {t : Table} (u : String) (h : ∀ p ∈ t, goodJob p.2) :
    ∀ p ∈ addJob t u, goodJob p.2 := by
  unfold addJob
  by_cases hu : containsKey t u
  · simp only [hu, if_true]; exact h
  · simp only [hu, Bool.false_eq_true, if_false]
    intro p hp
    rcases List.mem_append.mp hp with h' | h'
    · exact h p h'
    · simp only [List.mem_singleton] at h'
      subst h'
      refine ⟨fun hc => ?_, fun hc => ?_⟩
      · cases hc
      · cases hc

theorem keys_generate_nodup {ups : List String} {t : Table}
    (h : (t.map Prod.fst).Nodup) : ((generate ups t).map Prod.fst).Nodup := by
  induction ups generalizing t with
  | nil => exact h
  | cons u rest ih => exact ih (keys_addJob_nodup u h)

theorem countProcessing_generate (ups : List String) (t : Table) :
    countProcessing (generate ups t) = countProcessing t := by
  induction ups generalizing t with
  | nil => rfl
  | cons u rest ih =>
    show countProcessing (generate rest (addJob t u)) = countProcessing t
    rw [ih, countProcessing_addJob]

theorem goodJob_generate {ups : List String} {t : Table}
    (h : ∀ p ∈ t, goodJob p.2) : ∀ p ∈ generate ups t, goodJob p.2 := by
  induction ups generalizing t with
  | nil => exact h
  | cons u rest ih => exact ih (goodJob_addJob u h)

/-! ## Table update and invariant preservation -/

theorem not_containsKey_split {t₁ t₂ : Table} {k : String} {j : Job}
    (h : ((t₁ ++ (k, j) :: t₂).map Prod.fst).Nodup) :
    containsKey t₁ k = false ∧ containsKey t₂ k = false := by
  simp only [List.map_append, List.map_cons] at h
  rw [List.nodup_append] at h
  obtain ⟨h1, h2, hdisj⟩ := h
  constructor
  · rw [Bool.eq_false_iff]
    intro hc
    exact hdisj ((containsKey_iff_mem_keys _ _).mp hc) (List.mem_cons_self _ _)
  · rw [Bool.eq_false_iff]
    intro hc
    exact (List.nodup_cons.mp h2).1 ((containsKey_iff_mem_keys _ _).mp hc)

theorem lookupJob_of_split {t₁ t₂ : Table} {k : String} {j : Job}
    (h : ((t₁ ++ (k, j) :: t₂).map Prod.fst).Nodup) :
    lookupJob k (t₁ ++ (k, j) :: t₂) = some j := by
  rw [lookupJob_append_of_not_contains _ (not_containsKey_split h).1]
  simp [lookupJob]

theorem lookupJob_cancelAll {t : Table} {k : String} {j : Job}
    (hj : lookupJob k t = some j) :
    lookupJob k (cancelAll t)
      = some { j with cancelled := true, status := Status.cancelledSt } := by
  have := lookupJob_map
    (fun p => { p.2 with cancelled := true, status := Status.cancelledSt }) k t
  simp only [cancelAll]
  rw [this, hj]
  rfl

theorem lookupJob_cancelOne {t : Table} (n : String) {k : String} {j : Job}
    (hj : lookupJob k t = some j) :
    lookupJob k (cancelOne n t)
      = some (if k = n ∧ (j.status = Status.inQueue ∨ j.status = Status.processing)
              then { j with cancelled := true, status := Status.cancelledSt }
              else j) := by
  have := lookupJob_map
    (fun p =>
      if p.1 = n ∧ (p.2.status = Status.inQueue ∨ p.2.status = Status.processing)
      then { p.2 with cancelled := true, status := Status.cancelledSt }
      else p.2) k t
  simp only [cancelOne]
  rw [this, hj]
  simp

theorem lookupJob_updateJob {t : Table} {k : String} {j : Job} (k' : String)
    (jNew : Job) (hj : lookupJob k t = some j) :
    lookupJob k (updateJob t k' jNew)
      = some (if k = k' then jNew else j) := by
  have := lookupJob_map (fun p => if p.1 = k' then jNew else p.2) k t
  simp only [updateJob]
  rw [this, hj]
  simp

theorem inv_cancelAll {t : Table} (h : Inv t) : Inv (cancelAll t) := by
  obtain ⟨hnd, hcnt, hgood⟩ := h
  refine ⟨?_, ?_, ?_⟩
  · rw [cancelAll, keys_map_entries]
    exact hnd
  · calc countProcessing (cancelAll t) ≤ countProcessing t := by
          apply countProcessing_map_le
          intro p _ hgp
          cases hgp
        _ ≤ 1 := hcnt
  · intro p hp
    rcases List.mem_map.mp hp with ⟨q, _, rfl⟩
    exact ⟨fun _ => rfl, fun hc => by cases hc⟩

theorem inv_cancelOne (n : String) {t : Table} (h : Inv t) : Inv (cancelOne n t) := by
  obtain ⟨hnd, hcnt, hgood⟩ := h
  refine ⟨?_, ?_, ?_⟩
  · rw [cancelOne, keys_map_entries]
    exact hnd
  · calc countProcessing (cancelOne n t) ≤ countProcessing t := by
          apply countProcessing_map_le
          intro p hp hgp
          by_cases hcond :
            p.1 = n ∧ (p.2.status = Status.inQueue ∨ p.2.status = Status.processing)
          · rw [if_pos hcond] at hgp
            cases hgp
          · rwa [if_neg hcond] at hgp
        _ ≤ 1 := hcnt
  · intro p hp
    rcases List.mem_map.mp hp with ⟨q, hq, rfl⟩
    by_cases hcond :
      q.1 = n ∧ (q.2.status = Status.inQueue ∨ q.2.status = Status.processing)
    · simp only [if_pos hcond]
      exact ⟨fun _ => rfl, fun hc => by cases hc⟩
    · simp only [if_neg hcond]
      exact hgood q hq

theorem inv_admission {t : Table} (h : Inv t) : Inv (admission t) := by
  obtain ⟨hnd, hcnt, hgood⟩ := h
  exact ⟨by rw [keys_admission]; exact hnd,
    countProcessing_admission hcnt, goodJob_admission hgood⟩

theorem inv_generate (ups : List String) {t : Table} (h : Inv t) :
    Inv (generate ups t) := by
  obtain ⟨hnd, hcnt, hgood⟩ := h
  exact ⟨keys_generate_nodup hnd,
    by rw [countProcessing_generate]; exact hcnt, goodJob_generate hgood⟩

theorem inv_pipelineStep (ext gn : String → Option String)
    (c : String → Bool × Bool × Bool) {t : Table} (h : Inv t) :
    Inv (pipelineStep ext gn c t) := by
  obtain ⟨hnd, hcnt, hgood⟩ := h
  unfold pipelineStep
  cases hfp : findProcessingEntry t with
  | none => exact ⟨hnd, hcnt, hgood⟩
  | some p =>
    obtain ⟨k, j⟩ := p
    refine ⟨?_, ?_, ?_⟩
    · unfold updateJob
      rw [keys_map_entries]
      exact hnd
    · calc countProcessing (updateJob t k _) ≤ countProcessing t := by
            apply countProcessing_map_le
            intro q hq hgq
            by_cases hcond : q.1 = k
            · rw [if_pos hcond] at hgq
              exact absurd hgq (runPipeline_status_ne_processing _ _ _ _ _ _)
            · rwa [if_neg hcond] at hgq
          _ ≤ 1 := hcnt
    · intro q hq
      rcases List.mem_map.mp hq with ⟨r, hr, rfl⟩
      by_cases hcond : r.1 = k
      · simp only [if_pos hcond]
        exact goodJob_runPipeline _ _ _ _ _ _
      · simp only [if_neg hcond]
        exact hgood r hr

theorem inv_applyAction (a : Action) {t : Table} (h : Inv t) :
    Inv (applyAction a t) := by
  cases a with
  | generateRun ups ext gn c =>
    exact inv_pipelineStep ext gn c (inv_admission (inv_admission (inv_generate ups h)))
  | cancelAllRun => exact inv_cancelAll h
  | cancelOneRun n => exact inv_cancelOne n (inv_admission h)
  | rerun ext gn c =>
    exact inv_pipelineStep ext gn c (inv_admission (inv_admission h))

theorem inv_nil : Inv [] :=
  ⟨List.nodup_nil, by simp [countProcessing_nil], by simp⟩

/-- Every reachable table satisfies the global invariant. -/
theorem reachable_inv {t : Table} (h : Reachable t) : Inv t := by
  induction h with
  | init => exact inv_nil
  | step a _ ih => exact inv_applyAction a ih

/-! ## Preservation of untouched jobs -/

theorem lookupJob_findProcessing {t : Table} {k : String} {j : Job}
    (hnd : (t.map Prod.fst).Nodup) (h : findProcessingEntry t = some (k, j)) :
    lookupJob k t = some j := by
  obtain ⟨t₁, t₂, rfl, -, -⟩ := findProcessingEntry_split h
  exact lookupJob_of_split hnd

/-- The pipeline touches only the active (`"Processing"`) job: any other
job's record is untouched. -/
theorem lookupJob_pipelineStep (ext gn : String → Option String)
    (c : String → Bool × Bool × Bool) {t : Table} {k : String} {j : Job}
    (hnd : (t.map Prod.fst).Nodup) (hj : lookupJob k t = some j)
    (hs : j.status ≠ Status.processing) :
    lookupJob k (pipelineStep ext gn c t) = some j := by
  unfold pipelineStep
  cases hfp : findProcessingEntry t with
  | none => exact hj
  | some p =>
    obtain ⟨k', j'⟩ := p
    rw [lookupJob_updateJob k' _ hj]
    by_cases hk : k = k'
    · subst hk
      have := lookupJob_findProcessing hnd hfp
      rw [hj] at this
      obtain rfl : j = j' := Option.some.inj this
      obtain ⟨-, -, -, -, hstat⟩ := by
        exact findProcessingEntry_split hfp
      exact absurd hstat hs
    · simp [hk]

/-- Any action other than Cancel-All leaves a job whose status is
terminal completely unchanged. -/
theorem lookupJob_applyAction_terminal (a : Action) {t : Table} {k : String}
    {j : Job} (hInv : Inv t) (hj : lookupJob k t = some j)
    (hs : j.status = Status.completed ∨ j.status = Status.failed ∨
      j.status = Status.cancelledSt)
    (ha : a ≠ Action.cancelAllRun) :
    lookupJob k (applyAction a t) = some j := by
  have hsq : j.status ≠ Status.inQueue := by
    rcases hs with h | h | h <;> simp [h]
  have hsp : j.status ≠ Status.processing := by
    rcases hs with h | h | h <;> simp [h]
  cases a with
  | cancelAllRun => exact absurd rfl ha
  | generateRun ups ext gn c =>
    have h1 : lookupJob k (generate ups t) = some j := by
      rw [lookupJob_generate (lookupJob_some_contains hj)]
      exact hj
    have h2 := lookupJob_admission (lookupJob_admission h1 hsq) hsq
    have hInv2 : Inv (admission (admission (generate ups t))) :=
      inv_admission (inv_admission (inv_generate ups hInv))
    exact lookupJob_pipelineStep ext gn c hInv2.1 h2 hsp
  | cancelOneRun n =>
    have h1 := lookupJob_admission hj hsq
    show lookupJob k (cancelOne n (admission t)) = some j
    rw [lookupJob_cancelOne n h1]
    have : ¬(k = n ∧ (j.status = Status.inQueue ∨ j.status = Status.processing)) := by
      rintro ⟨-, h | h⟩
      · exact hsq h
      · exact hsp h
    rw [if_neg this]
  | rerun ext gn c =>
    have h2 := lookupJob_admission (lookupJob_admission hj hsq) hsq
    have hInv2 : Inv (admission (admission t)) := inv_admission (inv_admission hInv)
    exact lookupJob_pipelineStep ext gn c hInv2.1 h2 hsp

/-- A job that is already cancelled (flag and status) is preserved
exactly by every action, Cancel-All included. -/
theorem lookupJob_applyAction_cancelled (a : Action) {t : Table} {k : String}
    {j : Job} (hInv : Inv t) (hj : lookupJob k t = some j)
    (hc : j.cancelled = true) (hs : j.status = Status.cancelledSt) :
    lookupJob k (applyAction a t) = some j := by
  cases a with
  | cancelAllRun =>
    show lookupJob k (cancelAll t) = some j
    rw [lookupJob_cancelAll hj]
    obtain ⟨s, n, cf⟩ := j
    simp only at hc hs
    subst hc
    subst hs
    rfl
  | generateRun ups ext gn c =>
    exact lookupJob_applyAction_terminal _ hInv hj (Or.inr (Or.inr hs))
      (fun h => Action.noConfusion h)
  | cancelOneRun n =>
    exact lookupJob_applyAction_terminal _ hInv hj (Or.inr (Or.inr hs))
      (fun h => Action.noConfusion h)
  | rerun ext gn c =>
    exact lookupJob_applyAction_terminal _ hInv hj (Or.inr (Or.inr hs))
      (fun h => Action.noConfusion h)

/-! ## Export lemmas -/

theorem append_hrule_ne_empty (a : String) : a ++ hrule ≠ "" := by
  intro h
  have hd := congrArg String.data h
  rw [String.data_append] at hd
  have h2 := (List.append_eq_nil.mp hd).2
  exact absurd h2 (by decide)

theorem exportAllMarkdown_eq_ruleTerminated (t : Table) :
    exportAllMarkdown t = ruleTerminated
      ((t.filter (fun p => qualifies p.2)).map
        (fun p => exportHeading p.1 ++ p.2.notes.getD "")) := by
  suffices h : ∀ (t : Table) (acc : String),
      t.foldl (fun acc p =>
        if qualifies p.2 then acc ++ exportHeading p.1 ++ p.2.notes.getD "" ++ hrule
        else acc) acc
        = acc ++ ruleTerminated ((t.filter (fun p => qualifies p.2)).map
            (fun p => exportHeading p.1 ++ p.2.notes.getD "")) by
    rw [exportAllMarkdown, h]
    simp
  intro t
  induction t with
  | nil => intro acc; simp [ruleTerminated]
  | cons p rest ih =>
    intro acc
    by_cases hq : qualifies p.2
    · simp only [List.foldl_cons, List.filter_cons, hq, if_true, List.map_cons,
        ruleTerminated, ih]
      simp [String.append_assoc]
    · simp only [List.foldl_cons, List.filter_cons, hq, if_false, ih]
      simp [hq]

theorem filter_qualifies_eq_completed {t : Table} (h : ∀ p ∈ t, goodJob p.2) :
    t.filter (fun p => qualifies p.2)
      = t.filter (fun p => p.2.status = Status.completed) := by
  apply List.filter_congr
  intro p hp
  by_cases hc : p.2.status = Status.completed
  · obtain ⟨s, hn, hs⟩ := (h p hp).2 hc
    simp [qualifies, hc, hn, hs]
  · simp [qualifies, hc]

theorem exportAllMarkdown_eq_completed {t : Table} (h : ∀ p ∈ t, goodJob p.2) :
    exportAllMarkdown t = ruleTerminated (completedEntries t) := by
  rw [exportAllMarkdown_eq_ruleTerminated, filter_qualifies_eq_completed h]
  rfl

theorem ruleTerminated_eq_sepBy {es : List String} (h : es ≠ []) :
    ruleTerminated es = sepBy hrule es ++ hrule := by
  induction es with
  | nil => cases h rfl
  | cons e rest ih =>
    cases rest with
    | nil => simp [ruleTerminated, sepBy]
    | cons e2 rest2 =>
      have ih' := ih (by simp)
      have hstep : sepBy hrule (e :: e2 :: rest2)
          = e ++ hrule ++ sepBy hrule (e2 :: rest2) := rfl
      rw [ruleTerminated, ih', hstep]
      simp [String.append_assoc]

theorem ruleTerminated_ne_empty {es : List String} (h : es ≠ []) :
    ruleTerminated es ≠ "" := by
  cases es with
  | nil => cases h rfl
  | cons e rest =>
    show e ++ hrule ++ ruleTerminated rest ≠ ""
    intro hx
    have hd := congrArg String.data hx
    rw [String.data_append, String.data_append] at hd
    have h2 := List.append_eq_nil.mp (List.append_eq_nil.mp hd).1
    exact absurd h2.2 (by decide)

theorem lookupJob_mem {t : Table} {k : String} {j : Job}
    (h : lookupJob k t = some j) : (k, j) ∈ t := by
  induction t with
  | nil => cases h
  | cons p rest ih =>
    obtain ⟨k', j'⟩ := p
    simp only [lookupJob] at h
    by_cases hk : k' = k
    · rw [if_pos hk] at h
      obtain rfl : j' = j := Option.some.inj h
      subst hk
      exact List.mem_cons_self _ _
    · rw [if_neg hk] at h
      exact List.mem_cons_of_mem _ (ih h)

/-! ## The claims -/

/-- C1: for every table reachable by any sequence of generate, cancel and
rerun actions, at most one job has status `"Processing"` at any instant;
and the scheduler scan admits no new job while some job is already
`"Processing"` (it leaves the table unchanged). -/
theorem C1_singleFlight {t : Table} (h : Reachable t) :
    countProcessing t ≤ 1 ∧
    ∀ t' : Table, hasProcessing t' = true → admission t' = t' := by
  refine ⟨(reachable_inv h).2.1, fun t' hp => ?_⟩
  simp [admission, hp]

/-- Witness for C1 at a concrete reachable table: a generate run with two
uploads, the first processed to completion. -/
theorem C1_singleFlight_witness :
    countProcessing (applyAction (Action.generateRun ["a.pdf", "b.pdf"]
        (fun _ => some "text") (fun _ => some "notes")
        (fun _ => (false, false, false))) []) ≤ 1 ∧
    ∀ t' : Table, hasProcessing t' = true → admission t' = t' :=
  C1_singleFlight (Reachable.step _ Reachable.init)

/-- C2 counterexample: Cancel-All does **not** leave terminal jobs
untouched — a `"Completed"` job is moved to `"Cancelled"` (and its flag
set) by the `cancel_all_button` handler, which iterates over every job
with no status filter. -/
theorem C2_terminal_untouched_cex :
    lookupJob "done.pdf" (applyAction Action.cancelAllRun
        [("done.pdf",
          { status := Status.completed, notes := some "N", cancelled := false })])
      = some { status := Status.cancelledSt, notes := some "N", cancelled := true } ∧
    ({ status := Status.cancelledSt, notes := some "N", cancelled := true } : Job)
      ≠ { status := Status.completed, notes := some "N", cancelled := false } := by
  decide

/-- C2 (amended): `cancelAll` sets `cancelRequested = true` and
`status = Cancelled` for **every** job in the table, terminal ones
included; every action other than Cancel-All leaves a job in a terminal
state (`Completed`, `Failed`, `Cancelled`) completely unchanged. -/
theorem C2_cancelAll_amended :
    (∀ (t : Table) (k : String) (j : Job), lookupJob k t = some j →
      lookupJob k (cancelAll t)
        = some { j with cancelled := true, status := Status.cancelledSt }) ∧
    (∀ (a : Action) (t : Table) (k : String) (j : Job), Reachable t →
      a ≠ Action.cancelAllRun → lookupJob k t = some j →
      (j.status = Status.completed ∨ j.status = Status.failed ∨
        j.status = Status.cancelledSt) →
      lookupJob k (applyAction a t) = some j) :=
  ⟨fun _ _ _ hj => lookupJob_cancelAll hj,
   fun a _ _ _ hr ha hj hs =>
     lookupJob_applyAction_terminal a (reachable_inv hr) hj hs ha⟩

/-- Witness for C2 (amended): `cancelAll` rewrites a fresh job, and a
per-file cancel run leaves a reachable `"Failed"` job unchanged. -/
theorem C2_cancelAll_amended_witness :
    lookupJob "a.pdf" (cancelAll [("a.pdf", Job.fresh)])
      = some { status := Status.cancelledSt, notes := none, cancelled := true } ∧
    lookupJob "a.pdf" (applyAction (Action.cancelOneRun "b.pdf")
        (applyAction (Action.generateRun ["a.pdf"] (fun _ => none) (fun _ => none)
          (fun _ => (false, false, false))) []))
      = some { status := Status.failed, notes := none, cancelled := false } :=
  ⟨C2_cancelAll_amended.1 [("a.pdf", Job.fresh)] "a.pdf" Job.fresh rfl,
   C2_cancelAll_amended.2 (Action.cancelOneRun "b.pdf") _ "a.pdf"
     { status := Status.failed, notes := none, cancelled := false }
     (Reachable.step _ Reachable.init)
     (fun h => Action.noConfusion h)
     (by decide)
     (Or.inr (Or.inl rfl))⟩

/-- C3 counterexample: requesting cancellation does **not** only set the
flag — the Cancel-All handler writes `status = Cancelled` itself, in the
same action, before any scheduler or pipeline check of the flag runs
(the handler's rerun aborts the script before the scans). -/
theorem C3_deferred_cancel_cex :
    applyAction Action.cancelAllRun [("a.pdf", Job.fresh)]
      = [("a.pdf",
          { status := Status.cancelledSt, notes := none, cancelled := true })] ∧
    applyAction Action.cancelAllRun [("a.pdf", Job.fresh)]
      ≠ [("a.pdf", { Job.fresh with cancelled := true })] := by
  decide

/-- C3 (amended): the cancel handlers set the flag **and**
`status = Cancelled` synchronously, for Cancel-All on every job and for
the per-file cancel on its (`InQueue`/`Processing`) job; a cancellation
request that lands while the pipeline runs (visible only as the flag)
takes effect at the pipeline's next flag check — the very next pipeline
execution for that job cancels it without invoking any collaborator, so
the latency is at most one pipeline step. -/
theorem C3_cancellation_amended :
    (∀ (t : Table) (k : String) (j : Job), lookupJob k t = some j →
      lookupJob k (cancelAll t)
        = some { j with cancelled := true, status := Status.cancelledSt }) ∧
    (∀ (t : Table) (n : String) (j : Job), lookupJob n t = some j →
      (j.status = Status.inQueue ∨ j.status = Status.processing) →
      lookupJob n (cancelOne n t)
        = some { j with cancelled := true, status := Status.cancelledSt }) ∧
    (∀ (j : Job) (ext gn : Option String) (c1 c2 c3 : Bool), j.cancelled = true →
      runPipeline j ext gn c1 c2 c3
        = { job := { j with status := Status.cancelledSt },
            extractCalled := false, genCalled := false }) := by
  refine ⟨fun _ _ _ hj => lookupJob_cancelAll hj, ?_, ?_⟩
  · intro t n j hj he
    rw [lookupJob_cancelOne n hj, if_pos ⟨rfl, he⟩]
  · exact fun j ext gn c1 c2 c3 hc => runPipeline_cancelled_flag j ext gn c1 c2 c3 hc

/-- Witness for C3 (amended) at concrete inputs. -/
theorem C3_cancellation_amended_witness :
    lookupJob "a.pdf" (cancelAll [("a.pdf", Job.fresh)])
      = some { status := Status.cancelledSt, notes := none, cancelled := true } ∧
    lookupJob "a.pdf" (cancelOne "a.pdf" [("a.pdf", Job.fresh)])
      = some { status := Status.cancelledSt, notes := none, cancelled := true } ∧
    runPipeline { status := Status.processing, notes := none, cancelled := true }
        (some "text") (some "notes") false false false
      = { job := { status := Status.cancelledSt, notes := none, cancelled := true },
          extractCalled := false, genCalled := false } :=
  ⟨C3_cancellation_amended.1 [("a.pdf", Job.fresh)] "a.pdf" Job.fresh rfl,
   C3_cancellation_amended.2.1 [("a.pdf", Job.fresh)] "a.pdf" Job.fresh rfl
     (Or.inl rfl),
   C3_cancellation_amended.2.2
     { status := Status.processing, notes := none, cancelled := true }
     (some "text") (some "notes") false false false rfl⟩

/-- C4: once a job's `cancelled` flag is true in a reachable table, it
stays true under every further sequence of actions, and the job's status
is (and remains) `"Cancelled"` — in particular never `"Completed"`. -/
theorem C4_cancel_monotone {t : Table} (h : Reachable t) {k : String} {j : Job}
    (hj : lookupJob k t = some j) (hc : j.cancelled = true) (acts : List Action) :
    ∃ j', lookupJob k (runActions acts t) = some j' ∧ j'.cancelled = true ∧
      j'.status = Status.cancelledSt ∧ j'.status ≠ Status.completed := by
  have hs : j.status = Status.cancelledSt :=
    ((reachable_inv h).2.2 _ (lookupJob_mem hj)).1 hc
  induction acts generalizing t with
  | nil => exact ⟨j, hj, hc, hs, by rw [hs]; exact fun hh => Status.noConfusion hh⟩
  | cons a rest ih =>
    exact ih (Reachable.step a h)
      (lookupJob_applyAction_cancelled a (reachable_inv h) hj hc hs)

/-- Witness for C4: a cancelled job in a concrete reachable table stays
cancelled across a further rerun action. -/
theorem C4_cancel_monotone_witness :
    ∃ j', lookupJob "a.pdf"
        (runActions [Action.rerun (fun _ => some "t") (fun _ => some "n")
            (fun _ => (false, false, false))]
          (applyAction Action.cancelAllRun
            (applyAction (Action.generateRun ["a.pdf"] (fun _ => none)
              (fun _ => none) (fun _ => (false, false, false))) [])))
      = some j' ∧ j'.cancelled = true ∧ j'.status = Status.cancelledSt ∧
      j'.status ≠ Status.completed :=
  C4_cancel_monotone (Reachable.step _ (Reachable.step _ Reachable.init))
    (j := { status := Status.cancelledSt, notes := none, cancelled := true })
    (by decide) rfl
    [Action.rerun (fun _ => some "t") (fun _ => some "n")
      (fun _ => (false, false, false))]

/-- C5: if the cancellation flag becomes true after the extraction call
succeeds and before generation starts (arrival `c2`, observed by the
check at line 255), the pipeline sets the job to `"Cancelled"` and the
note generator is never invoked; the extraction had already run. -/
theorem C5_cancel_after_extraction (j : Job) (gn : Option String) (c3 : Bool)
    (s : String) (hflag : j.cancelled = false) (_hs : s ≠ "") :
    (runPipeline j (some s) gn false true c3).job.status = Status.cancelledSt ∧
    (runPipeline j (some s) gn false true c3).genCalled = false ∧
    (runPipeline j (some s) gn false true c3).extractCalled = true := by
  simp [runPipeline, hflag]

/-- Witness for C5 at a concrete job and extraction text. -/
theorem C5_cancel_after_extraction_witness :
    (runPipeline Job.fresh (some "text") (some "notes") false true false).job.status
      = Status.cancelledSt ∧
    (runPipeline Job.fresh (some "text") (some "notes") false true false).genCalled
      = false ∧
    (runPipeline Job.fresh (some "text") (some "notes") false true false).extractCalled
      = true :=
  C5_cancel_after_extraction Job.fresh (some "notes") false "text" rfl (by decide)

/-- C6: the pipeline is a total function whose result status is always
one of the three terminal states (no exception reaches the scheduler or
presentation layer — the `try/except` wrappers turn collaborator
exceptions into `none`); absent a cancellation request, an extraction
failure, a generation failure and an empty generation result each map the
active job to `"Failed"`. -/
theorem C6_failures_to_failed :
    (∀ (j : Job) (ext gn : Option String) (c1 c2 c3 : Bool),
      (runPipeline j ext gn c1 c2 c3).job.status = Status.cancelledSt ∨
      (runPipeline j ext gn c1 c2 c3).job.status = Status.completed ∨
      (runPipeline j ext gn c1 c2 c3).job.status = Status.failed) ∧
    (∀ (j : Job) (gn : Option String) (c3 : Bool), j.cancelled = false →
      (runPipeline j none gn false false c3).job.status = Status.failed) ∧
    (∀ (j : Job) (s : String), j.cancelled = false → s ≠ "" →
      (runPipeline j (some s) none false false false).job.status = Status.failed ∧
      (runPipeline j (some s) (some "") false false false).job.status
        = Status.failed) := by
  refine ⟨runPipeline_status, ?_, ?_⟩
  · intro j gn c3 hflag
    simp [runPipeline, hflag]
  · intro j s hflag hs
    constructor <;> simp [runPipeline, hflag, hs]

/-- Witness for C6 at concrete inputs: an extraction failure, a
generation failure and an empty generation result. -/
theorem C6_failures_to_failed_witness :
    ((runPipeline Job.fresh (some "t") (some "n") false false false).job.status
        = Status.cancelledSt ∨
      (runPipeline Job.fresh (some "t") (some "n") false false false).job.status
        = Status.completed ∨
      (runPipeline Job.fresh (some "t") (some "n") false false false).job.status
        = Status.failed) ∧
    (runPipeline Job.fresh none (some "n") false false false).job.status
      = Status.failed ∧
    (runPipeline Job.fresh (some "t") none false false false).job.status
      = Status.failed ∧
    (runPipeline Job.fresh (some "t") (some "") false false false).job.status
      = Status.failed :=
  ⟨C6_failures_to_failed.1 Job.fresh (some "t") (some "n") false false false,
   C6_failures_to_failed.2.1 Job.fresh (some "n") false rfl,
   (C6_failures_to_failed.2.2 Job.fresh "t" rfl (by decide)).1,
   (C6_failures_to_failed.2.2 Job.fresh "t" rfl (by decide)).2⟩

/-- C7: when no job is `"Processing"`, the scheduler scan admits the
first `"In Queue"` job in insertion order — the job before the split
point is admitted while every other entry (in particular any later
eligible job) is left unchanged. -/
theorem C7_admission_order (t₁ t₂ : Table) (k : String) (j : Job)
    (hnp : hasProcessing (t₁ ++ (k, j) :: t₂) = false)
    (hfirst : ∀ p ∈ t₁, p.2.status ≠ Status.inQueue)
    (hq : j.status = Status.inQueue) :
    admission (t₁ ++ (k, j) :: t₂)
      = t₁ ++ (k, { j with status := Status.processing }) :: t₂ := by
  unfold admission
  rw [hnp]
  simp only [Bool.false_eq_true, if_false]
  exact markFirstInQueue_split t₁ t₂ k j hfirst hq

/-- Witness for C7: job `a.pdf` was queued before `b.pdf`, both are
eligible, and the scan admits `a.pdf` while `b.pdf` stays queued. -/
theorem C7_admission_order_witness :
    admission [("done.pdf", Job.mk Status.failed none false),
        ("a.pdf", Job.fresh), ("b.pdf", Job.fresh)]
      = [("done.pdf", Job.mk Status.failed none false),
         ("a.pdf", Job.mk Status.processing none false),
         ("b.pdf", Job.fresh)] :=
  C7_admission_order
    [("done.pdf", Job.mk Status.failed none false)]
    [("b.pdf", Job.fresh)] "a.pdf" Job.fresh (by decide) (by decide) rfl

/-- C8: re-submitting a file identifier already present in the table is a
no-op for that job — the creation loop inserts only unseen names, so the
job's status, notes and cancellation flag are all preserved. -/
theorem C8_generate_idempotent (ups : List String) {t : Table} {k : String}
    {j : Job} (hj : lookupJob k t = some j) :
    lookupJob k (generate ups t) = some j := by
  rw [lookupJob_generate (lookupJob_some_contains hj)]
  exact hj

/-- Witness for C8: re-uploading `a.pdf` (plus a new `b.pdf`) preserves
the completed job's record exactly. -/
theorem C8_generate_idempotent_witness :
    lookupJob "a.pdf" (generate ["a.pdf", "b.pdf"]
        [("a.pdf", Job.mk Status.completed (some "N") false)])
      = some (Job.mk Status.completed (some "N") false) :=
  C8_generate_idempotent ["a.pdf", "b.pdf"] rfl

/-- C10: an extraction call that succeeds but returns empty text is
treated exactly like an extraction failure (Python truthiness at
line 258): same pipeline result, job `"Failed"` with no notes, and the
note generator never invoked. -/
theorem C10_empty_extraction (j : Job) (gn : Option String) (c3 : Bool)
    (hflag : j.cancelled = false) :
    runPipeline j (some "") gn false false c3
      = runPipeline j none gn false false c3 ∧
    (runPipeline j (some "") gn false false c3).job.status = Status.failed ∧
    (runPipeline j (some "") gn false false c3).job.notes = none ∧
    (runPipeline j (some "") gn false false c3).genCalled = false := by
  simp [runPipeline, hflag]

/-- Witness for C10 at a concrete job. -/
theorem C10_empty_extraction_witness :
    runPipeline Job.fresh (some "") (some "n") false false false
      = runPipeline Job.fresh none (some "n") false false false ∧
    (runPipeline Job.fresh (some "") (some "n") false false false).job.status
      = Status.failed ∧
    (runPipeline Job.fresh (some "") (some "n") false false false).job.notes
      = none ∧
    (runPipeline Job.fresh (some "") (some "n") false false false).genCalled
      = false :=
  C10_empty_extraction Job.fresh (some "n") false rfl

/-- C9 counterexample: the export is not the entries merely *separated*
by a horizontal rule — the loop appends the rule after **every** entry,
so even a single-entry export carries a trailing rule and differs from
the spec-worded concatenation. -/
theorem C9_export_separator_cex :
    exportAllMarkdownResult
        [("a.pdf", Job.mk Status.completed (some "N") false)]
      = some "# Notes for a\n\nN\n\n---\n\n" ∧
    specExportAllMarkdown
        [("a.pdf", Job.mk Status.completed (some "N") false)]
      = some "# Notes for a\n\nN" ∧
    exportAllMarkdownResult
        [("a.pdf", Job.mk Status.completed (some "N") false)]
      ≠ specExportAllMarkdown
        [("a.pdf", Job.mk Status.completed (some "N") false)] := by
  decide

/-- C9 (amended): over any table whose jobs satisfy the per-job invariant
(every `Completed` job has non-empty notes — true of all reachable
tables), the export handler yields the `Completed` jobs' heading+notes
entries in insertion order, separated by horizontal rules **with one
trailing rule at the end**; when no job qualifies it yields `none` (a
warning) instead of output. -/
theorem C9_export_amended {t : Table} (h : ∀ p ∈ t, goodJob p.2) :
    (completedEntries t = [] → exportAllMarkdownResult t = none) ∧
    (completedEntries t ≠ [] →
      exportAllMarkdownResult t
        = some (sepBy hrule (completedEntries t) ++ hrule)) := by
  have hexp := exportAllMarkdown_eq_completed h
  constructor
  · intro he
    unfold exportAllMarkdownResult
    rw [hexp, he]
    rfl
  · intro he
    unfold exportAllMarkdownResult
    rw [hexp, if_neg (ruleTerminated_ne_empty he), ruleTerminated_eq_sepBy he]

/-- Witness for C9 (amended): a table with two completed jobs and one
queued job exports both entries, rule-separated and rule-terminated. -/
theorem C9_export_amended_witness :
    completedEntries [("a.pdf", Job.mk Status.completed (some "N1") false),
        ("q.pdf", Job.fresh),
        ("b.pdf", Job.mk Status.completed (some "N2") false)] ≠ [] ∧
    exportAllMarkdownResult [("a.pdf", Job.mk Status.completed (some "N1") false),
        ("q.pdf", Job.fresh),
        ("b.pdf", Job.mk Status.completed (some "N2") false)]
      = some (sepBy hrule (completedEntries
          [("a.pdf", Job.mk Status.completed (some "N1") false),
           ("q.pdf", Job.fresh),
           ("b.pdf", Job.mk Status.completed (some "N2") false)]) ++ hrule) :=
  ⟨by decide,
   (C9_export_amended (fun p hp => by
      rcases List.mem_cons.mp hp with rfl | hp'
      · exact ⟨(fun hcc => absurd hcc (by decide)), (fun _ => ⟨"N1", rfl, by decide⟩)⟩
      rcases List.mem_cons.mp hp' with rfl | hp''
      · exact ⟨(fun hcc => absurd hcc (by decide)), (fun hcc => absurd hcc (by decide))⟩
      rcases List.mem_singleton.mp hp'' with rfl
      exact ⟨(fun hcc => absurd hcc (by decide)), (fun _ => ⟨"N2", rfl, by decide⟩)⟩)).2
     (by decide)⟩

end NotesApp
